import Mathlib

/-!
Verification of the `conradludgate/deadpool` object pool core.

The development shallowly embeds the current crate modules
(`src/array_queue.rs`, `src/pool.rs`, `src/object.rs`, `src/metrics.rs`,
`src/errors.rs`) as executable Lean definitions and proves the specified
properties about them.  Machine integers (`usize`) are modelled as `Nat`
with explicit reduction modulo `2 ^ 64` wherever the Rust code uses
wrapping arithmetic.  The concurrent operations of the lock-free ring are
given their quiescent (sequential, atomic-step) semantics: every
`compare_exchange` succeeds exactly when the expected value matches the
current one, and the retry loops of `push_blocking` / `pop` are resolved
by the observation that, without interference, a single `try_push` /
`try_pop` attempt either breaks or can never make progress (the latter
case is represented by `Option.none` and proved unreachable from the
initial state).

The older, superseded implementation kept in `src/lib.rs` (which calls
the manager `detach` hook on some paths) is embedded separately where a
claim references it, under names suffixed `_lib`.
-/

/-- The modulus of `usize` arithmetic (64-bit machine words). -/
def wordSize : Nat := 2 ^ 64

/-- Rust's `usize::next_power_of_two`: the smallest power of two that is
greater than or equal to the argument (`1` for `0`). -/
def next_power_of_two (n : Nat) : Nat := 2 ^ Nat.clog 2 n

/-- A slot of the ring buffer (`Slot<T>` in `array_queue.rs`): an atomic
stamp word and a value cell.  `MaybeUninit<T>` is modelled as `Option T`,
`none` standing for the uninitialised state. -/
structure Slot (T : Type) where
  stamp : Nat
  value : Option T
deriving DecidableEq, Repr

/-- The bounded MPMC ring (`ArrayQueue<T>` in `array_queue.rs`). -/
structure ArrayQueue (T : Type) where
  head : Nat
  tail : Nat
  buffer : List (Slot T)
  cap : Nat
  one_lap : Nat
deriving DecidableEq, Repr

/-- `ArrayQueue::new(cap)`: head and tail start at `{lap 0, index 0}`,
slot `i` is stamped `i`, and `one_lap` is the smallest power of two
greater than `cap`.  The source asserts `cap > 0`; that precondition is
carried by `ArrayQueue.Reach.init` below. -/
def ArrayQueue.new {T : Type} (cap : Nat) : ArrayQueue T :=
  { head := 0
    tail := 0
    buffer := (List.range cap).map fun i => { stamp := i, value := none }
    cap := cap
    one_lap := next_power_of_two (cap + 1) }

/-- `ArrayQueue::index`: deconstruct a stamp into the buffer index
(low bits, `stamp & (one_lap - 1)`, i.e. `stamp % one_lap` since
`one_lap` is a power of two) and the successor stamp. -/
def ArrayQueue.index {T : Type} (q : ArrayQueue T) (stamp : Nat) : Nat × Nat :=
  let i := stamp % q.one_lap
  let lap := stamp - i
  let new := if i + 1 < q.cap then stamp + 1 else (lap + q.one_lap) % wordSize
  (i, new)

/-- The `Pause` back-off hint of `array_queue.rs`. -/
inductive Pause : Type
  | spin
  | yieldStep
deriving DecidableEq, Repr

/-- The `Flow` control type (named `FlowCtl` here to avoid clashing with Mathlib) of `array_queue.rs`:
`Break(B)` or `Continue(Pause, Option<usize>, C)`. -/
inductive FlowCtl (B C : Type) : Type
  | brk (b : B)
  | cont (p : Pause) (s : Option Nat) (c : C)
deriving DecidableEq, Repr

/-- `ArrayQueue::try_push`, one attempt at the given observed `tail`.
`none` models the (unreachable) failure of the out-of-bounds
`debug_assert` before `get_unchecked`.  The sequential semantics of the
tail CAS is: succeed exactly when the stored tail still equals the
observed one, otherwise report the current value. -/
def ArrayQueue.try_push {T : Type} (q : ArrayQueue T) (tail : Nat) (v : T) :
    Option (ArrayQueue T × FlowCtl (Except T Unit) T) :=
  let p := q.index tail
  match q.buffer[p.1]? with
  | none => none
  | some slot =>
    if tail = slot.stamp then
      if q.tail = tail then
        some ({ q with
                  tail := p.2
                  buffer := q.buffer.set p.1 { stamp := tail + 1, value := some v } },
              .brk (.ok ()))
      else
        some (q, .cont .spin (some q.tail) v)
    else if (slot.stamp + q.one_lap) % wordSize = tail + 1 then
      if (q.head + q.one_lap) % wordSize = tail then
        some (q, .brk (.error v))
      else
        some (q, .cont .spin none v)
    else
      some (q, .cont .yieldStep none v)

/-- `ArrayQueue::push_blocking` in a quiescent state: the retry loop
re-runs `try_push` on an unchanged queue, so it terminates exactly when
the first attempt breaks; a `Continue` outcome would spin forever and is
modelled as `none` (proved unreachable from reachable states). -/
def ArrayQueue.push_blocking {T : Type} (q : ArrayQueue T) (v : T) :
    Option (ArrayQueue T × Except T Unit) :=
  match q.try_push q.tail v with
  | some (q', .brk r) => some (q', r)
  | _ => none

/-- `ArrayQueue::try_pop`, one attempt at the given observed `head`.
`none` models either the out-of-bounds `debug_assert` failing or
`assume_init` being reached on an uninitialised cell — both unreachable. -/
def ArrayQueue.try_pop {T : Type} (q : ArrayQueue T) (head : Nat) :
    Option (ArrayQueue T × FlowCtl (Option T) Unit) :=
  let p := q.index head
  match q.buffer[p.1]? with
  | none => none
  | some slot =>
    if head + 1 = slot.stamp then
      if q.head = head then
        match slot.value with
        | none => none
        | some msg =>
          some ({ q with
                    head := p.2
                    buffer := q.buffer.set p.1
                      { stamp := (head + q.one_lap) % wordSize, value := none } },
                .brk (some msg))
      else
        some (q, .cont .spin (some q.head) ())
    else if slot.stamp = head then
      if q.tail = head then
        some (q, .brk none)
      else
        some (q, .cont .spin none ())
    else
      some (q, .cont .yieldStep none ())

/-- `ArrayQueue::pop` in a quiescent state; see `push_blocking`. -/
def ArrayQueue.pop {T : Type} (q : ArrayQueue T) :
    Option (ArrayQueue T × Option T) :=
  match q.try_pop q.head with
  | some (q', .brk r) => some (q', r)
  | _ => none

/-- `ArrayQueue::len_impl`, the length computed from a consistent
`(head, tail)` pair. -/
def ArrayQueue.len_impl {T : Type} (q : ArrayQueue T) (head tail : Nat) : Nat :=
  let head_index := head % q.one_lap
  let tail_index := tail % q.one_lap
  if head_index < tail_index then tail_index - head_index
  else if head_index > tail_index then q.cap - head_index + tail_index
  else if tail = head then 0
  else q.cap

/-- `ArrayQueue::len`.  The double-read of `tail` in the source loop is
trivially consistent without interference, so the loop body returns on
its first iteration with the current `head` and `tail`. -/
def ArrayQueue.len {T : Type} (q : ArrayQueue T) : Nat :=
  q.len_impl q.head q.tail

/-- `ArrayQueue::capacity`. -/
def ArrayQueue.capacity {T : Type} (q : ArrayQueue T) : Nat := q.cap

/-- States of the ring reachable from `new cap` by completed
`push_blocking` / `pop` operations.  `init` carries the `cap > 0`
assertion of `ArrayQueue::new`; the bound `cap + 1 ≤ 2 ^ 63` records
that `(cap + 1).next_power_of_two()` must not overflow `usize` (a queue
of `2 ^ 63` slots is unconstructible). -/
inductive ArrayQueue.Reach {T : Type} : ArrayQueue T → Prop
  | init (cap : Nat) (hpos : 0 < cap) (hbound : cap + 1 ≤ 2 ^ 63) :
      ArrayQueue.Reach (ArrayQueue.new (T := T) cap)
  | push (q q' : ArrayQueue T) (v : T) (r : Except T Unit) :
      ArrayQueue.Reach q → q.push_blocking v = some (q', r) → ArrayQueue.Reach q'
  | pop (q q' : ArrayQueue T) (r : Option T) :
      ArrayQueue.Reach q → q.pop = some (q', r) → ArrayQueue.Reach q'

/-! ## Pool layer (`errors.rs`, `metrics.rs`, `pool.rs`, `object.rs`) -/

/-- `TimeoutType` from `errors.rs`. -/
inductive TimeoutType : Type
  | wait
  | create
  | recycle
deriving DecidableEq, Repr

/-- `PoolError<E>` from `errors.rs`. -/
inductive PoolError (E : Type) : Type
  | timeout (t : TimeoutType)
  | backend (e : E)
  | closed
deriving DecidableEq, Repr

/-- `tokio::sync::TryAcquireError`. -/
inductive TryAcquireError : Type
  | closed
  | noPermits
deriving DecidableEq, Repr

/-- The permit gate: a closable counting semaphore
(`tokio::sync::Semaphore`, the external dependency described by the
spec's Permit Gate contract).  Only the permit count and the closed flag
are observable state. -/
structure Semaphore : Type where
  permits : Nat
  closed : Bool
deriving DecidableEq, Repr

/-- `Semaphore::try_acquire`: fails `Closed` when the gate is closed,
`NoPermits` when no permit is available, otherwise transfers one permit
to the caller. -/
def Semaphore.try_acquire (s : Semaphore) : Except TryAcquireError Semaphore :=
  if s.closed then .error .closed
  else if s.permits = 0 then .error .noPermits
  else .ok { s with permits := s.permits - 1 }

/-- `Semaphore::add_permits`. -/
def Semaphore.add_permits (s : Semaphore) (n : Nat) : Semaphore :=
  { s with permits := s.permits + n }

/-- `Semaphore::close`. -/
def Semaphore.close (s : Semaphore) : Semaphore :=
  { s with closed := true }

/-- The shared pool state relevant to the claims: the ring and the gate
(`Slots` in `pool.rs`), instrumented with a counter of calls to the
manager `detach` hook so that hook invocations are observable.  The
current `pool.rs` / `object.rs` code contains no call site of such a
hook, so only the `_lib` variants below ever touch `detach_count`. -/
structure PoolState (T : Type) : Type where
  ring : ArrayQueue T
  semaphore : Semaphore
  detach_count : Nat
deriving DecidableEq, Repr

/-- `PoolInner::return_object` from `pool.rs` (lines 212–218): record the
active-time metric (time is not modelled), push the object back into the
ring, and add one permit exactly when the push succeeded.  On a failed
push the object is simply dropped — no hook runs, no permit is added. -/
def return_object {T : Type} (p : PoolState T) (v : T) : Option (PoolState T) :=
  match p.ring.push_blocking v with
  | none => none
  | some (r', .ok _) =>
      some { p with ring := r', semaphore := p.semaphore.add_permits 1 }
  | some (r', .error _) =>
      some { p with ring := r' }

/-- `PoolInner::return_object` from the older `lib.rs` variant
(lines 447–453): on a failed push the manager `detach` hook is called on
the object before it is dropped. -/
def return_object_lib {T : Type} (p : PoolState T) (v : T) : Option (PoolState T) :=
  match p.ring.push_blocking v with
  | none => none
  | some (r', .ok _) =>
      some { p with ring := r', semaphore := p.semaphore.add_permits 1 }
  | some (r', .error _) =>
      some { p with ring := r', detach_count := p.detach_count + 1 }

/-- `Object::take` from `object.rs` (lines 61–67): remove the inner value
from the lease; when the weak back-reference to the pool upgrades, add
one permit to the gate; hand the inner value to the caller.  The ring is
not touched and no manager hook is called. -/
def object_take {T : Type} (pool : Option (PoolState T)) (inner : T) :
    Option (PoolState T) × T :=
  (pool.map fun p => { p with semaphore := p.semaphore.add_permits 1 }, inner)

/-- `PoolInner::detach_object` from the older `lib.rs` variant
(lines 454–457): add a permit, then call the manager `detach` hook. -/
def detach_object_lib {T : Type} (p : PoolState T) : PoolState T :=
  { p with semaphore := p.semaphore.add_permits 1,
           detach_count := p.detach_count + 1 }

/-- `Object::take` from the older `lib.rs` variant (lines 164–174):
like `object_take` but routed through `detach_object_lib`. -/
def object_take_lib {T : Type} (pool : Option (PoolState T)) (inner : T) :
    Option (PoolState T) × T :=
  (pool.map detach_object_lib, inner)

/-- The `while self.inner.slots.vec.pop().await.is_some() {}` drain loop
of `Pool::close`, with explicit fuel (the loop runs `len` iterations on
a quiescent ring; insufficient fuel or a stuck `pop` yields `none`,
proved unreachable). -/
def drain {T : Type} : Nat → ArrayQueue T → Option (ArrayQueue T)
  | 0, q =>
    match q.pop with
    | some (q', none) => some q'
    | _ => none
  | fuel + 1, q =>
    match q.pop with
    | none => none
    | some (q', none) => some q'
    | some (q', some _) => drain fuel q'

/-- `Pool::close` from `pool.rs` (lines 172–175): close the gate, then
pop the ring until it reports empty.  Drained objects are dropped; the
loop body runs no hook. -/
def pool_close {T : Type} (p : PoolState T) : Option (PoolState T) :=
  let s := p.semaphore.close
  match drain p.ring.len p.ring with
  | none => none
  | some r' => some { p with semaphore := s, ring := r' }

/-- Environment behaviour of one `manager.recycle` call raced against the
deadline inside `apply_timeout`: either the future completes first with
the manager's result (`Option<M::Type>` in the current trait — `none`
surrenders the object), or the deadline elapses first. -/
inductive RecycleEvent (T : Type) : Type
  | completes (r : Option T)
  | deadline
deriving DecidableEq, Repr

deriving instance DecidableEq for Except

/-- Environment behaviour of one `manager.create` call raced against the
deadline. -/
inductive CreateEvent (T E : Type) : Type
  | completes (r : Except E T)
  | deadline
deriving DecidableEq, Repr

/-- `Pool::try_recycle` from `pool.rs` (lines 150–159):
`apply_timeout(TimeoutType::Recycle, …)` around the recycle future.  The
wrapped future itself is infallible (`Ok::<_, M::Error>(…)`), so the
only error produced is the deadline mapping to `Timeout(Recycle)`. -/
def try_recycle {T E : Type} (ev : RecycleEvent T) :
    Except (PoolError E) (Option T) :=
  match ev with
  | .deadline => .error (.timeout .recycle)
  | .completes r => .ok r

/-- `Pool::try_create` from `pool.rs` (lines 162–164):
`apply_timeout(TimeoutType::Create, …)` around `manager.create()`; a
manager error is converted by `Into` to `PoolError::Backend`. -/
def try_create {T E : Type} (ev : CreateEvent T E) :
    Except (PoolError E) T :=
  match ev with
  | .deadline => .error (.timeout .create)
  | .completes (.error e) => .error (.backend e)
  | .completes (.ok v) => .ok v

/-- The resource loop of `Pool::get_inner` from `pool.rs`
(lines 136–147), run under the held permit.  `re`/`ce` give the
environment's outcome for the `k`-th manager call; `?` on
`try_recycle`/`try_create` propagates any error to the caller, and a
recycled `none` re-enters the loop.  Fuel bounds the number of
iterations; `none` means the loop did not settle within the fuel. -/
def get_inner_loop {T E : Type} :
    Nat → ArrayQueue T → (Nat → RecycleEvent T) → (Nat → CreateEvent T E) → Nat →
    Option (ArrayQueue T × Except (PoolError E) T)
  | 0, _, _, _, _ => none
  | fuel + 1, q, re, ce, k =>
    match q.pop with
    | none => none
    | some (q', some _) =>
      match try_recycle (E := E) (re k) with
      | .error e => some (q', .error e)
      | .ok (some obj) => some (q', .ok obj)
      | .ok none => get_inner_loop fuel q' re ce (k + 1)
    | some (q', none) =>
      match try_create (ce k) with
      | .error e => some (q', .error e)
      | .ok v => some (q', .ok v)

/-- `non_blocking` in `Pool::get_inner` (`pool.rs` lines 109–112):
a zero configured timeout requests non-blocking acquisition.
`Duration` is modelled as `Nat`. -/
def is_nonblocking (timeouts : Option Nat) : Bool :=
  match timeouts with
  | some t => t == 0
  | none => false

/-- The non-blocking branch of permit acquisition in `Pool::get_inner`
(`pool.rs` lines 115–123): `try_acquire` with
`Closed ↦ PoolError::Closed` and `NoPermits ↦ Timeout(Wait)`. -/
def acquire_nonblocking {E : Type} (s : Semaphore) :
    Except (PoolError E) Semaphore :=
  match s.try_acquire with
  | .error .closed => .error .closed
  | .error .noPermits => .error (.timeout .wait)
  | .ok s' => .ok s'

/-- The pool metrics of `metrics.rs` that the claims observe (the two
time counters depend on wall-clock durations, which are passed in as the
measured number of microseconds). -/
structure PoolMetrics : Type where
  total_waiting : Nat
  failure_count : Nat
deriving DecidableEq, Repr

/-- The metrics bookkeeping of `Pool::timeout_get` (`pool.rs`
lines 82–102) applied to the result of `get_inner`: `record_waiting`
always runs, and `failure_count` is incremented exactly when the result
is an error — whichever error it is.  The result itself is passed
through unchanged. -/
def timeout_get_record {E A : Type} (m : PoolMetrics) (waited : Nat)
    (res : Except (PoolError E) A) : PoolMetrics × Except (PoolError E) A :=
  let m1 := { m with total_waiting := m.total_waiting + waited }
  match res with
  | .ok a => (m1, .ok a)
  | .error e => ({ m1 with failure_count := m1.failure_count + 1 }, .error e)

/-! ## The quiescent-state invariant of the ring

A reachable queue that has performed `p` pops and `n` pushes in total is
fully described by those two counters: head and tail are the `p`-th and
`n`-th elements of the canonical stamp sequence, the slots addressed by
the window `[p, n)` are occupied, and the rest are free. -/

/-- The virtual (unwrapped) position of operation `j`: lap `j / cap`
and index `j % cap`, packed with `one_lap`. -/
def vpos (cap one_lap j : Nat) : Nat := (j / cap) * one_lap + j % cap

/-- The stamp taken by head (resp. tail) after `j` pops (resp. pushes):
the virtual position reduced modulo the machine word. -/
def stampSeq (cap one_lap j : Nat) : Nat := vpos cap one_lap j % wordSize

/-- Arithmetic side conditions tying `cap` and `one_lap` together, all
consequences of `one_lap = (cap + 1).next_power_of_two()` for a
constructible capacity. -/
structure LapFacts (K L : Nat) : Prop where
  K_pos : 0 < K
  K_lt_L : K < L
  L_le : L ≤ 2 ^ 63
  L_dvd : L ∣ wordSize

/-- The invariant of quiescent reachable ring states, indexed by the
total number of pops `p` and pushes `n` performed so far. -/
structure RingInv {T : Type} (q : ArrayQueue T) (p n : Nat) : Prop where
  cap_pos : 0 < q.cap
  cap_bound : q.cap + 1 ≤ 2 ^ 63
  lap_eq : q.one_lap = next_power_of_two (q.cap + 1)
  buf_len : q.buffer.length = q.cap
  p_le_n : p ≤ n
  n_le : n ≤ p + q.cap
  head_eq : q.head = stampSeq q.cap q.one_lap p
  tail_eq : q.tail = stampSeq q.cap q.one_lap n
  occupied : ∀ j, p ≤ j → j < n →
      ∃ v, q.buffer[j % q.cap]? =
        some { stamp := stampSeq q.cap q.one_lap j + 1, value := some v }
  free : ∀ j, n ≤ j → j < p + q.cap →
      q.buffer[j % q.cap]? =
        some { stamp := stampSeq q.cap q.one_lap j, value := (none : Option T) }

/-! ## Concrete states used by witnesses and counterexamples -/

/-- A capacity-1 ring holding one element: the result of
`ArrayQueue::new(1)` followed by `push_blocking(5)` (the ring is full). -/
def fullRingC1 : ArrayQueue Nat :=
  { head := 0, tail := 2, buffer := [{ stamp := 1, value := some 5 }],
    cap := 1, one_lap := 2 }

/-- A pool over a full capacity-1 ring, no permits out of place, no
hook calls recorded yet. -/
def c1_pool_full : PoolState Nat :=
  { ring := fullRingC1, semaphore := { permits := 3, closed := false },
    detach_count := 0 }

/-- A pool whose ring holds one idle resource, used to observe what
`Pool::close` does to it. -/
def c4_pool_idle : PoolState Nat :=
  { ring := { head := 0, tail := 2, buffer := [{ stamp := 1, value := some 7 }],
              cap := 1, one_lap := 2 },
    semaphore := { permits := 0, closed := false },
    detach_count := 0 }

/-- A capacity-1 ring holding one element, fed to the `get_inner` loop
for the recycle-timeout counterexample. -/
def c2_ring : ArrayQueue Nat :=
  { head := 0, tail := 2, buffer := [{ stamp := 1, value := some 7 }],
    cap := 1, one_lap := 2 }

/-- A concrete pool state for the `Object::take` counterexample (its ring
is `ArrayQueue::new(2)` written out). -/
def c3_pool : PoolState Nat :=
  { ring := { head := 0, tail := 0,
              buffer := [{ stamp := 0, value := none }, { stamp := 1, value := none }],
              cap := 2, one_lap := 4 },
    semaphore := { permits := 1, closed := false },
    detach_count := 0 }

/-- `ArrayQueue::new(2)` after `push_blocking(1)`: a quiescent queue that
is neither empty nor full. -/
def c8_q1 : ArrayQueue Nat :=
  { head := 0, tail := 1,
    buffer := [{ stamp := 1, value := some 1 }, { stamp := 1, value := none }],
    cap := 2, one_lap := 4 }

/-- `c8_q1` after `push_blocking(2)`. -/
def c8_q2 : ArrayQueue Nat :=
  { head := 0, tail := 4,
    buffer := [{ stamp := 1, value := some 1 }, { stamp := 2, value := some 2 }],
    cap := 2, one_lap := 4 }

/-- The capacity-1 ring after one push, exhibiting a slot stamp whose
index part equals `cap`. -/
def c9_ring : ArrayQueue Nat :=
  { head := 0, tail := 2, buffer := [{ stamp := 1, value := some 5 }],
    cap := 1, one_lap := 2 }

/-! ## Arithmetic properties of the stamp sequence -/

theorem wordSize_pos : 0 < wordSize := by norm_num [wordSize]

theorem le_next_power_of_two (n : Nat) : n ≤ next_power_of_two n :=
  Nat.le_pow_clog (by norm_num) n

theorem next_power_of_two_le {n k : Nat} (h : n ≤ 2 ^ k) :
    next_power_of_two n ≤ 2 ^ k :=
  Nat.pow_le_pow_right (by norm_num)
    ((Nat.le_pow_iff_clog_le (by norm_num)).mp h)

theorem next_power_of_two_dvd_word {n : Nat} (h : n ≤ 2 ^ 63) :
    next_power_of_two n ∣ wordSize := by
  have hle : Nat.clog 2 n ≤ 63 := (Nat.le_pow_iff_clog_le (by norm_num)).mp h
  exact pow_dvd_pow 2 (by omega)

theorem ringInv_lapFacts {T : Type} {q : ArrayQueue T} {p n : Nat}
    (h : RingInv q p n) : LapFacts q.cap q.one_lap := by
  refine ⟨h.cap_pos, ?_, ?_, ?_⟩
  · have := le_next_power_of_two (q.cap + 1)
    rw [← h.lap_eq] at this
    omega
  · rw [h.lap_eq]
    exact next_power_of_two_le h.cap_bound
  · rw [h.lap_eq]
    exact next_power_of_two_dvd_word h.cap_bound

theorem LapFacts.L_pos {K L : Nat} (hf : LapFacts K L) : 0 < L :=
  lt_trans hf.K_pos hf.K_lt_L

theorem LapFacts.L_lt_word {K L : Nat} (hf : LapFacts K L) : L < wordSize :=
  lt_of_le_of_lt hf.L_le (by norm_num [wordSize])

theorem vpos_mod {K L : Nat} (hf : LapFacts K L) (n : Nat) :
    vpos K L n % L = n % K := by
  unfold vpos
  rw [Nat.mul_add_mod']
  exact Nat.mod_eq_of_lt (lt_trans (Nat.mod_lt _ hf.K_pos) hf.K_lt_L)

theorem stampSeq_mod {K L : Nat} (hf : LapFacts K L) (n : Nat) :
    stampSeq K L n % L = n % K := by
  unfold stampSeq
  rw [Nat.mod_mod_of_dvd _ hf.L_dvd]
  exact vpos_mod hf n

theorem vpos_lt_vpos {K L : Nat} (hf : LapFacts K L) {a b : Nat} (hab : a < b) :
    vpos K L a < vpos K L b := by
  rcases Nat.lt_or_ge (a / K) (b / K) with h | h
  · have h1 : vpos K L a < (a / K + 1) * L := by
      unfold vpos
      have : a % K < L := lt_trans (Nat.mod_lt _ hf.K_pos) hf.K_lt_L
      calc (a / K) * L + a % K < (a / K) * L + L := Nat.add_lt_add_left this _
        _ = (a / K + 1) * L := by ring
    have h2 : (a / K + 1) * L ≤ (b / K) * L := Nat.mul_le_mul_right _ h
    have h3 : (b / K) * L ≤ vpos K L b := Nat.le_add_right _ _
    omega
  · have hdiv : a / K = b / K :=
      Nat.le_antisymm (Nat.div_le_div_right (le_of_lt hab)) h
    have hmod : a % K < b % K := by
      have ha := Nat.div_add_mod a K
      have hb := Nat.div_add_mod b K
      rw [hdiv] at ha
      have h2 : K * (b / K) + a % K < K * (b / K) + b % K := by
        rw [ha, hb]; exact hab
      exact Nat.lt_of_add_lt_add_left h2
    unfold vpos
    rw [hdiv]
    exact Nat.add_lt_add_left hmod _

theorem vpos_le_vpos {K L : Nat} (hf : LapFacts K L) {a b : Nat} (hab : a ≤ b) :
    vpos K L a ≤ vpos K L b := by
  rcases Nat.eq_or_lt_of_le hab with rfl | h
  · exact le_refl _
  · exact le_of_lt (vpos_lt_vpos hf h)

theorem vpos_add_cap {K L : Nat} (hf : LapFacts K L) (n : Nat) :
    vpos K L (n + K) = vpos K L n + L := by
  unfold vpos
  rw [Nat.add_div_right _ hf.K_pos, Nat.add_mod_right]
  ring

theorem stampSeq_lt_word (K L n : Nat) : stampSeq K L n < wordSize :=
  Nat.mod_lt _ wordSize_pos

theorem word_sub_one_mod {L : Nat} (hL2 : 2 ≤ L) (hdvd : L ∣ wordSize) :
    (wordSize - 1) % L = L - 1 := by
  obtain ⟨m, hm⟩ := hdvd
  have hm1 : 1 ≤ m := by
    rcases Nat.eq_zero_or_pos m with h0 | h1
    · rw [h0, Nat.mul_zero] at hm
      exact absurd hm.symm (Nat.ne_of_lt wordSize_pos)
    · exact h1
  obtain ⟨mm, rfl⟩ : ∃ mm, m = mm + 1 := ⟨m - 1, by omega⟩
  have hw : wordSize - 1 = L * mm + (L - 1) := by
    rw [hm, Nat.mul_succ]
    have hLmm : 0 ≤ L * mm := Nat.zero_le _
    omega
  rw [hw, Nat.mul_comm, Nat.mul_add_mod']
  exact Nat.mod_eq_of_lt (by omega)

theorem stampSeq_add_one_lt {K L : Nat} (hf : LapFacts K L) (n : Nat) :
    stampSeq K L n + 1 < wordSize := by
  have h1 : stampSeq K L n < wordSize := stampSeq_lt_word K L n
  by_contra hcon
  have heq : stampSeq K L n = wordSize - 1 := by omega
  have h2 := stampSeq_mod hf n
  rw [heq, word_sub_one_mod (by have := hf.K_pos; have := hf.K_lt_L; omega)
    hf.L_dvd] at h2
  have h3 : n % K < K := Nat.mod_lt _ hf.K_pos
  have h4 : K < L := hf.K_lt_L
  omega

theorem succ_div_mod {K n : Nat} (hK : 0 < K) (h : n % K + 1 < K) :
    (n + 1) / K = n / K ∧ (n + 1) % K = n % K + 1 := by
  have hm := Nat.mod_add_div n K
  exact (Nat.div_mod_unique hK).mpr ⟨by omega, h⟩

theorem succ_div_mod_wrap {K n : Nat} (hK : 0 < K) (h : ¬ n % K + 1 < K) :
    (n + 1) / K = n / K + 1 ∧ (n + 1) % K = 0 := by
  have hmlt : n % K < K := Nat.mod_lt _ hK
  have hmod : n % K = K - 1 := by omega
  have hm := Nat.mod_add_div n K
  rw [hmod] at hm
  refine (Nat.div_mod_unique hK).mpr ⟨?_, hK⟩
  rw [Nat.mul_succ]
  generalize hA : K * (n / K) = A at hm ⊢
  omega

theorem stampSeq_succ_lt {K L : Nat} (hf : LapFacts K L) {n : Nat}
    (h : n % K + 1 < K) : stampSeq K L (n + 1) = stampSeq K L n + 1 := by
  obtain ⟨hd, hm⟩ := succ_div_mod hf.K_pos h
  have hv : vpos K L (n + 1) = vpos K L n + 1 := by
    unfold vpos
    rw [hd, hm]
    ring
  unfold stampSeq
  rw [hv, ← Nat.mod_add_mod]
  exact Nat.mod_eq_of_lt (stampSeq_add_one_lt hf n)

theorem div_mul_mod_word {K L : Nat} (hf : LapFacts K L) (n : Nat) :
    ((n / K) * L) % wordSize + L ≤ wordSize := by
  obtain ⟨m, hm⟩ := hf.L_dvd
  have hm1 : 1 ≤ m := by
    rcases Nat.eq_zero_or_pos m with h0 | h1
    · rw [h0, Nat.mul_zero] at hm
      exact absurd hm.symm (Nat.ne_of_lt wordSize_pos)
    · exact h1
  have h1 : ((n / K) * L) % wordSize = L * ((n / K) % m) := by
    rw [Nat.mul_comm (n / K) L, hm, Nat.mul_mod_mul_left]
  have h2 : (n / K) % m ≤ m - 1 := by
    have := Nat.mod_lt (n / K) (show 0 < m by omega)
    omega
  have h3 : L * ((n / K) % m) ≤ L * (m - 1) := Nat.mul_le_mul_left _ h2
  have h4 : L * (m - 1) + L = L * m := by
    rw [Nat.mul_sub, Nat.mul_one]
    have h5 : L ≤ L * m := Nat.le_mul_of_pos_right _ (by omega)
    omega
  rw [h1, ← hm] at *
  omega

theorem stampSeq_split {K L : Nat} (hf : LapFacts K L) (n : Nat) :
    stampSeq K L n = ((n / K) * L) % wordSize + n % K := by
  have hbound := div_mul_mod_word hf n
  have hmK : n % K < L := lt_trans (Nat.mod_lt _ hf.K_pos) hf.K_lt_L
  unfold stampSeq vpos
  rw [Nat.add_mod, Nat.mod_eq_of_lt (lt_trans hmK hf.L_lt_word)]
  exact Nat.mod_eq_of_lt (by omega)

theorem stampSeq_succ_wrap {K L : Nat} (hf : LapFacts K L) {n : Nat}
    (h : ¬ n % K + 1 < K) :
    stampSeq K L (n + 1) = ((stampSeq K L n - n % K) + L) % wordSize := by
  obtain ⟨hd, hm⟩ := succ_div_mod_wrap hf.K_pos h
  have hsub : stampSeq K L n - n % K = ((n / K) * L) % wordSize := by
    rw [stampSeq_split hf n]
    omega
  rw [hsub]
  unfold stampSeq vpos
  rw [hd, hm, Nat.add_zero, Nat.mod_add_mod, Nat.succ_mul]

theorem stampSeq_add_cap {K L : Nat} (hf : LapFacts K L) (n : Nat) :
    stampSeq K L (n + K) = (stampSeq K L n + L) % wordSize := by
  unfold stampSeq
  rw [vpos_add_cap hf, Nat.mod_add_mod]

theorem stampSeq_inj {K L : Nat} (hf : LapFacts K L) {a b : Nat}
    (hab : a ≤ b) (hbk : b ≤ a + K) (heq : stampSeq K L a = stampSeq K L b) :
    a = b := by
  have hv : vpos K L a ≡ vpos K L b [MOD wordSize] := heq
  have hle : vpos K L a ≤ vpos K L b := vpos_le_vpos hf hab
  have hdvd : wordSize ∣ vpos K L b - vpos K L a :=
    (Nat.modEq_iff_dvd' hle).mp hv
  have hub : vpos K L b - vpos K L a ≤ L := by
    have h1 : vpos K L b ≤ vpos K L (a + K) := vpos_le_vpos hf hbk
    have h2 : vpos K L (a + K) = vpos K L a + L := vpos_add_cap hf a
    omega
  have hWL : L < wordSize := hf.L_lt_word
  by_contra hne
  have hlt : a < b := lt_of_le_of_ne hab hne
  have hvlt := vpos_lt_vpos hf hlt
  have hpos : 0 < vpos K L b - vpos K L a := by omega
  have := Nat.le_of_dvd hpos hdvd
  omega

theorem mod_ne_window {K : Nat} {a b : Nat} (hab : a < b) (hbk : b < a + K) :
    a % K ≠ b % K := by
  intro heq
  have hdvd : K ∣ b - a := (Nat.modEq_iff_dvd' (le_of_lt hab)).mp heq
  have := Nat.le_of_dvd (by omega) hdvd
  omega

theorem index_stampSeq {T : Type} (q : ArrayQueue T)
    (hf : LapFacts q.cap q.one_lap) (n : Nat) :
    q.index (stampSeq q.cap q.one_lap n) =
      (n % q.cap, stampSeq q.cap q.one_lap (n + 1)) := by
  unfold ArrayQueue.index
  simp only [stampSeq_mod hf n]
  by_cases h : n % q.cap + 1 < q.cap
  · rw [if_pos h, stampSeq_succ_lt hf h]
  · rw [if_neg h, stampSeq_succ_wrap hf h]

/-! ## The invariant holds initially and is preserved by the operations -/

theorem inv_new {T : Type} {cap : Nat} (hpos : 0 < cap)
    (hbound : cap + 1 ≤ 2 ^ 63) :
    RingInv (ArrayQueue.new (T := T) cap) 0 0 := by
  refine ⟨hpos, hbound, rfl, ?_, le_refl 0, by simp [ArrayQueue.new], ?_, ?_, ?_, ?_⟩
  · simp [ArrayQueue.new]
  · simp [ArrayQueue.new, stampSeq, vpos]
  · simp [ArrayQueue.new, stampSeq, vpos]
  · intro j h0 hj
    exact absurd hj (by omega)
  · intro j hj0 hjc
    have hj : j < cap := by simpa [ArrayQueue.new] using hjc
    have hjm : j % cap = j := Nat.mod_eq_of_lt hj
    have hsj : stampSeq cap (next_power_of_two (cap + 1)) j = j := by
      unfold stampSeq vpos
      rw [Nat.div_eq_of_lt hj, hjm, Nat.zero_mul, Nat.zero_add]
      exact Nat.mod_eq_of_lt (lt_trans hj (by norm_num [wordSize] at *; omega))
    simp [ArrayQueue.new, hjm, hsj, List.getElem?_map, List.getElem?_range hj]

theorem try_push_nonfull {T : Type} {q : ArrayQueue T} {p n : Nat}
    (h : RingInv q p n) (hlt : n < p + q.cap) (v : T) :
    q.try_push q.tail v =
      some ({ q with
                tail := stampSeq q.cap q.one_lap (n + 1)
                buffer := q.buffer.set (n % q.cap)
                  { stamp := stampSeq q.cap q.one_lap n + 1, value := some v } },
            .brk (.ok ())) := by
  have hf := ringInv_lapFacts h
  have hfree := h.free n (le_refl n) hlt
  unfold ArrayQueue.try_push
  rw [h.tail_eq, index_stampSeq q hf n]
  simp only [hfree, if_pos rfl]
  simp

theorem add_mod_cases {a b : Nat} (ha : a < wordSize) (hb : b < wordSize) :
    (a + b) % wordSize = a + b ∧ a + b < wordSize ∨
    (a + b) % wordSize = a + b - wordSize ∧ wordSize ≤ a + b := by
  rcases Nat.lt_or_ge (a + b) wordSize with h | h
  · exact Or.inl ⟨Nat.mod_eq_of_lt h, h⟩
  · refine Or.inr ⟨?_, h⟩
    rw [Nat.mod_eq_sub_mod h]
    exact Nat.mod_eq_of_lt (by omega)

theorem LapFacts.two_le_L {K L : Nat} (hf : LapFacts K L) : 2 ≤ L := by
  have := hf.K_pos
  have := hf.K_lt_L
  omega

theorem stampSeq_add_lap_ne {K L : Nat} (hf : LapFacts K L) (p : Nat) :
    stampSeq K L p + L ≠ wordSize - 1 := by
  intro heq
  have h1 : (stampSeq K L p + L) % L = p % K := by
    rw [Nat.add_mod_right]
    exact stampSeq_mod hf p
  rw [heq, word_sub_one_mod hf.two_le_L hf.L_dvd] at h1
  have h2 := Nat.mod_lt p hf.K_pos
  have h3 := hf.K_lt_L
  omega

theorem stampSeq_full_ne {K L : Nat} (hf : LapFacts K L) (p : Nat) :
    stampSeq K L (p + K) ≠ stampSeq K L p + 1 := by
  rw [stampSeq_add_cap hf p]
  intro heq
  have hs := stampSeq_lt_word K L p
  have hL2 := hf.two_le_L
  have hLW := hf.L_lt_word
  rcases add_mod_cases hs hLW with ⟨h1, h2⟩ | ⟨h1, h2⟩ <;> rw [h1] at heq <;> omega

theorem stampSeq_full_cond2 {K L : Nat} (hf : LapFacts K L) (p : Nat) :
    (stampSeq K L p + 1 + L) % wordSize = stampSeq K L (p + K) + 1 := by
  rw [stampSeq_add_cap hf p]
  have hs := stampSeq_lt_word K L p
  have hL2 := hf.two_le_L
  have hLW := hf.L_lt_word
  have hne := stampSeq_add_lap_ne hf p
  rcases add_mod_cases hs hLW with ⟨h1, h2⟩ | ⟨h1, h2⟩
  · have hlt : stampSeq K L p + 1 + L < wordSize := by omega
    rw [Nat.mod_eq_of_lt hlt, h1]
    omega
  · have hx : (stampSeq K L p + 1 + L) % wordSize =
        stampSeq K L p + 1 + L - wordSize := by
      rw [Nat.mod_eq_sub_mod (by omega)]
      exact Nat.mod_eq_of_lt (by omega)
    rw [hx, h1]
    omega

theorem try_push_full {T : Type} {q : ArrayQueue T} {p n : Nat}
    (h : RingInv q p n) (heq : n = p + q.cap) (v : T) :
    q.try_push q.tail v = some (q, .brk (.error v)) := by
  have hf := ringInv_lapFacts h
  subst heq
  obtain ⟨w, hw⟩ := h.occupied p (le_refl p) (by have := hf.K_pos; omega)
  have hidx : (p + q.cap) % q.cap = p % q.cap := Nat.add_mod_right p q.cap
  have hc1 : ¬ stampSeq q.cap q.one_lap (p + q.cap) =
      stampSeq q.cap q.one_lap p + 1 := stampSeq_full_ne hf p
  have hc2 : (stampSeq q.cap q.one_lap p + 1 + q.one_lap) % wordSize =
      stampSeq q.cap q.one_lap (p + q.cap) + 1 := stampSeq_full_cond2 hf p
  have hc3 : (q.head + q.one_lap) % wordSize =
      stampSeq q.cap q.one_lap (p + q.cap) := by
    rw [h.head_eq, ← stampSeq_add_cap hf p]
  unfold ArrayQueue.try_push
  rw [h.tail_eq, index_stampSeq q hf (p + q.cap), hidx]
  simp only [hw, if_neg hc1, if_pos hc2, if_pos hc3]

theorem inv_push_ok {T : Type} {q : ArrayQueue T} {p n : Nat}
    (h : RingInv q p n) (hlt : n < p + q.cap) (v : T) :
    ∃ q', q.push_blocking v = some (q', .ok ()) ∧ RingInv q' p (n + 1) ∧
      q'.head = q.head ∧ q'.cap = q.cap ∧ q'.one_lap = q.one_lap ∧
      q'.buffer = q.buffer.set (n % q.cap)
        { stamp := stampSeq q.cap q.one_lap n + 1, value := some v } := by
  have hf := ringInv_lapFacts h
  refine ⟨{ q with
              tail := stampSeq q.cap q.one_lap (n + 1)
              buffer := q.buffer.set (n % q.cap)
                { stamp := stampSeq q.cap q.one_lap n + 1, value := some v } },
          ?_, ?_, rfl, rfl, rfl, rfl⟩
  · unfold ArrayQueue.push_blocking
    rw [try_push_nonfull h hlt v]
  · refine ⟨h.cap_pos, h.cap_bound, h.lap_eq, ?_, ?_, ?_, h.head_eq, rfl, ?_, ?_⟩
    · show (q.buffer.set (n % q.cap) _).length = q.cap
      simp [List.length_set, h.buf_len]
    · show p ≤ n + 1
      have := h.p_le_n
      omega
    · show n + 1 ≤ p + q.cap
      omega
    · intro j hj hjn
      show ∃ w, (q.buffer.set (n % q.cap)
          { stamp := stampSeq q.cap q.one_lap n + 1, value := some v })[j % q.cap]? =
        some { stamp := stampSeq q.cap q.one_lap j + 1, value := some w }
      rcases Nat.lt_or_ge j n with hlt2 | hge
      · obtain ⟨w, hw⟩ := h.occupied j hj hlt2
        refine ⟨w, ?_⟩
        have hne : n % q.cap ≠ j % q.cap := by
          have := mod_ne_window (K := q.cap) hlt2 (by omega)
          exact fun hx => this hx.symm
        rw [List.getElem?_set_ne hne]
        exact hw
      · have hj_eq : j = n := by omega
        subst hj_eq
        refine ⟨v, ?_⟩
        have hlen : j % q.cap < q.buffer.length := by
          rw [h.buf_len]
          exact Nat.mod_lt _ hf.K_pos
        rw [List.getElem?_set_self hlen]
    · intro j hjn hjk
      show (q.buffer.set (n % q.cap)
          { stamp := stampSeq q.cap q.one_lap n + 1, value := some v })[j % q.cap]? =
        some { stamp := stampSeq q.cap q.one_lap j, value := none }
      have hjk2 : j < p + q.cap := hjk
      have hpn := h.p_le_n
      have hne : n % q.cap ≠ j % q.cap :=
        mod_ne_window (K := q.cap) (by omega) (by omega)
      rw [List.getElem?_set_ne hne]
      exact h.free j (by omega) hjk2

theorem inv_push_err {T : Type} {q : ArrayQueue T} {p n : Nat}
    (h : RingInv q p n) (heq : n = p + q.cap) (v : T) :
    q.push_blocking v = some (q, .error v) := by
  unfold ArrayQueue.push_blocking
  rw [try_push_full h heq v]

theorem try_pop_nonempty {T : Type} {q : ArrayQueue T} {p n : Nat}
    (h : RingInv q p n) (hlt : p < n) :
    ∃ w, q.buffer[p % q.cap]? =
        some { stamp := stampSeq q.cap q.one_lap p + 1, value := some w } ∧
      q.try_pop q.head =
        some ({ q with
                  head := stampSeq q.cap q.one_lap (p + 1)
                  buffer := q.buffer.set (p % q.cap)
                    { stamp := (stampSeq q.cap q.one_lap p + q.one_lap) % wordSize,
                      value := none } },
              .brk (some w)) := by
  have hf := ringInv_lapFacts h
  obtain ⟨w, hw⟩ := h.occupied p (le_refl p) hlt
  refine ⟨w, hw, ?_⟩
  unfold ArrayQueue.try_pop
  rw [h.head_eq, index_stampSeq q hf p]
  simp only [hw, if_pos rfl]
  simp

theorem inv_pop_some {T : Type} {q : ArrayQueue T} {p n : Nat}
    (h : RingInv q p n) (hlt : p < n) :
    ∃ w q', q.buffer[p % q.cap]? =
        some { stamp := stampSeq q.cap q.one_lap p + 1, value := some w } ∧
      q.pop = some (q', some w) ∧ RingInv q' (p + 1) n ∧
      q'.tail = q.tail ∧ q'.cap = q.cap ∧ q'.one_lap = q.one_lap := by
  have hf := ringInv_lapFacts h
  obtain ⟨w, hw, htp⟩ := try_pop_nonempty h hlt
  refine ⟨w, { q with
                 head := stampSeq q.cap q.one_lap (p + 1)
                 buffer := q.buffer.set (p % q.cap)
                   { stamp := (stampSeq q.cap q.one_lap p + q.one_lap) % wordSize,
                     value := none } },
          hw, ?_, ?_, rfl, rfl, rfl⟩
  · unfold ArrayQueue.pop
    rw [htp]
  · refine ⟨h.cap_pos, h.cap_bound, h.lap_eq, ?_, ?_, ?_, rfl, h.tail_eq, ?_, ?_⟩
    · show (q.buffer.set (p % q.cap) _).length = q.cap
      simp [List.length_set, h.buf_len]
    · show p + 1 ≤ n
      omega
    · show n ≤ p + 1 + q.cap
      have := h.n_le
      omega
    · intro j hj hjn
      show ∃ w2, (q.buffer.set (p % q.cap)
          { stamp := (stampSeq q.cap q.one_lap p + q.one_lap) % wordSize,
            value := none })[j % q.cap]? =
        some { stamp := stampSeq q.cap q.one_lap j + 1, value := some w2 }
      obtain ⟨w2, hw2⟩ := h.occupied j (by omega) hjn
      refine ⟨w2, ?_⟩
      have hn_le := h.n_le
      have hne : p % q.cap ≠ j % q.cap :=
        mod_ne_window (K := q.cap) (by omega) (by omega)
      rw [List.getElem?_set_ne hne]
      exact hw2
    · intro j hjn hjk
      show (q.buffer.set (p % q.cap)
          { stamp := (stampSeq q.cap q.one_lap p + q.one_lap) % wordSize,
            value := none })[j % q.cap]? =
        some { stamp := stampSeq q.cap q.one_lap j, value := none }
      have hjk2 : j < p + 1 + q.cap := hjk
      rcases Nat.lt_or_ge j (p + q.cap) with hcase | hcase
      · have hne : p % q.cap ≠ j % q.cap :=
          mod_ne_window (K := q.cap) (by omega) (by omega)
        rw [List.getElem?_set_ne hne]
        exact h.free j hjn hcase
      · have hj_eq : j = p + q.cap := by omega
        subst hj_eq
        have hidx : (p + q.cap) % q.cap = p % q.cap := Nat.add_mod_right p q.cap
        have hlen : p % q.cap < q.buffer.length := by
          rw [h.buf_len]
          exact Nat.mod_lt _ hf.K_pos
        rw [hidx, List.getElem?_set_self hlen, ← stampSeq_add_cap hf p]

theorem inv_pop_empty {T : Type} {q : ArrayQueue T} {p n : Nat}
    (h : RingInv q p n) (heq : p = n) : q.pop = some (q, none) := by
  have hf := ringInv_lapFacts h
  subst heq
  have hfree := h.free p (le_refl p) (by have := hf.K_pos; omega)
  have hc1 : ¬ stampSeq q.cap q.one_lap p + 1 = stampSeq q.cap q.one_lap p := by
    omega
  have htq : q.tail = q.head := by rw [h.tail_eq, h.head_eq]
  unfold ArrayQueue.pop ArrayQueue.try_pop
  rw [h.head_eq, index_stampSeq q hf p]
  simp only [hfree, if_neg hc1, if_pos rfl]
  simp [← h.head_eq, htq]

theorem reach_inv {T : Type} {q : ArrayQueue T} (h : ArrayQueue.Reach q) :
    ∃ p n, RingInv q p n := by
  induction h with
  | init cap hpos hbound => exact ⟨0, 0, inv_new hpos hbound⟩
  | push q0 q' v r hq hpb ih =>
    obtain ⟨p, n, hinv⟩ := ih
    rcases Nat.lt_or_ge n (p + q0.cap) with hlt | hge
    · obtain ⟨q2, hpb2, hinv2, -, -, -, -⟩ := inv_push_ok hinv hlt v
      rw [hpb] at hpb2
      simp only [Option.some.injEq, Prod.mk.injEq] at hpb2
      obtain ⟨h1, -⟩ := hpb2
      exact ⟨p, n + 1, h1 ▸ hinv2⟩
    · have heq : n = p + q0.cap := by
        have := hinv.n_le
        omega
      have h2 := inv_push_err hinv heq v
      rw [hpb] at h2
      simp only [Option.some.injEq, Prod.mk.injEq] at h2
      obtain ⟨h1, -⟩ := h2
      exact ⟨p, n, h1 ▸ hinv⟩
  | pop q0 q' r hq hpop ih =>
    obtain ⟨p, n, hinv⟩ := ih
    rcases Nat.lt_or_ge p n with hlt | hge
    · obtain ⟨w, q2, -, hpop2, hinv2, -, -, -⟩ := inv_pop_some hinv hlt
      rw [hpop] at hpop2
      simp only [Option.some.injEq, Prod.mk.injEq] at hpop2
      obtain ⟨h1, -⟩ := hpop2
      exact ⟨p + 1, n, h1 ▸ hinv2⟩
    · have heq : p = n := by
        have := hinv.p_le_n
        omega
      have h2 := inv_pop_empty hinv heq
      rw [hpop] at h2
      simp only [Option.some.injEq, Prod.mk.injEq] at h2
      obtain ⟨h1, -⟩ := h2
      exact ⟨p, n, h1 ▸ hinv⟩

theorem inv_len {T : Type} {q : ArrayQueue T} {p n : Nat}
    (h : RingInv q p n) : q.len = n - p := by
  have hf := ringInv_lapFacts h
  have hpn := h.p_le_n
  have hnle := h.n_le
  have haK : p % q.cap < q.cap := Nat.mod_lt _ hf.K_pos
  have hbK : n % q.cap < q.cap := Nat.mod_lt _ hf.K_pos
  have hinj : stampSeq q.cap q.one_lap n = stampSeq q.cap q.one_lap p → n = p :=
    fun hh => (stampSeq_inj hf hpn hnle hh.symm).symm
  have heqS : n = p →
      stampSeq q.cap q.one_lap n = stampSeq q.cap q.one_lap p :=
    fun hh => by rw [hh]
  have hb_mod : n % q.cap = (p % q.cap + (n - p)) % q.cap := by
    conv_lhs => rw [show n = p + (n - p) by omega]
    rw [Nat.mod_add_mod]
  unfold ArrayQueue.len ArrayQueue.len_impl
  rw [h.head_eq, h.tail_eq, stampSeq_mod hf p, stampSeq_mod hf n]
  dsimp only
  rcases Nat.lt_or_ge (p % q.cap + (n - p)) q.cap with hc | hc
  · have hb : n % q.cap = p % q.cap + (n - p) := by
      rw [hb_mod]
      exact Nat.mod_eq_of_lt hc
    split_ifs with h1 h2 h3
    · omega
    · omega
    · have := hinj h3
      omega
    · have hd0 : n = p := by omega
      exact absurd (heqS hd0) h3
  · have hb : n % q.cap = p % q.cap + (n - p) - q.cap := by
      rw [hb_mod, Nat.mod_eq_sub_mod hc]
      exact Nat.mod_eq_of_lt (by omega)
    split_ifs with h1 h2 h3
    · omega
    · omega
    · have := hinj h3
      omega
    · omega

theorem inv_head_eq_tail_iff {T : Type} {q : ArrayQueue T} {p n : Nat}
    (h : RingInv q p n) : q.head = q.tail ↔ p = n := by
  have hf := ringInv_lapFacts h
  rw [h.head_eq, h.tail_eq]
  constructor
  · exact fun hh => stampSeq_inj hf h.p_le_n h.n_le hh
  · intro hh
    rw [hh]

theorem inv_full_iff {T : Type} {q : ArrayQueue T} {p n : Nat}
    (h : RingInv q p n) :
    (q.head + q.one_lap) % wordSize = q.tail ↔ n = p + q.cap := by
  have hf := ringInv_lapFacts h
  rw [h.head_eq, h.tail_eq]
  constructor
  · intro hh
    have h2 : stampSeq q.cap q.one_lap n = stampSeq q.cap q.one_lap (p + q.cap) := by
      rw [stampSeq_add_cap hf p, ← hh]
    exact stampSeq_inj hf h.n_le (by have := h.p_le_n; omega) h2
  · intro hh
    rw [hh, ← stampSeq_add_cap hf p]

theorem drain_inv {T : Type} :
    ∀ (fuel : Nat) (q : ArrayQueue T) (p n : Nat), RingInv q p n →
      n ≤ p + fuel → ∃ q', drain fuel q = some q' ∧ RingInv q' n n := by
  intro fuel
  induction fuel with
  | zero =>
    intro q p n h hle
    have hpe : p = n := by
      have := h.p_le_n
      omega
    subst hpe
    refine ⟨q, ?_, h⟩
    unfold drain
    rw [inv_pop_empty h rfl]
  | succ fuel ih =>
    intro q p n h hle
    rcases Nat.lt_or_ge p n with hlt | hge
    · obtain ⟨w, q', -, hpop, hinv', -, -, -⟩ := inv_pop_some h hlt
      obtain ⟨q'', hd, hinv''⟩ := ih q' (p + 1) n hinv' (by omega)
      refine ⟨q'', ?_, hinv''⟩
      unfold drain
      rw [hpop]
      exact hd
    · have hpe : p = n := by
        have := h.p_le_n
        omega
      subst hpe
      refine ⟨q, ?_, h⟩
      unfold drain
      rw [inv_pop_empty h rfl]

theorem inv_head_index_lt {T : Type} {q : ArrayQueue T} {p n : Nat}
    (h : RingInv q p n) : q.head % q.one_lap < q.cap := by
  have hf := ringInv_lapFacts h
  rw [h.head_eq, stampSeq_mod hf p]
  exact Nat.mod_lt _ hf.K_pos

theorem inv_tail_index_lt {T : Type} {q : ArrayQueue T} {p n : Nat}
    (h : RingInv q p n) : q.tail % q.one_lap < q.cap := by
  have hf := ringInv_lapFacts h
  rw [h.tail_eq, stampSeq_mod hf n]
  exact Nat.mod_lt _ hf.K_pos

theorem window_residue {K : Nat} (hK : 0 < K) (p i : Nat) (hi : i < K) :
    ∃ j, p ≤ j ∧ j < p + K ∧ j % K = i := by
  have hbase : p - p % K = K * (p / K) := by
    have hm := Nat.mod_add_div p K
    generalize hA : K * (p / K) = A at hm ⊢
    omega
  have hmp : p % K < K := Nat.mod_lt _ hK
  have hple : p % K ≤ p := Nat.mod_le p K
  rcases Nat.lt_or_ge i (p % K) with hlt | hle
  · refine ⟨p - p % K + K + i, by omega, by omega, ?_⟩
    rw [Nat.add_assoc, hbase, Nat.mul_add_mod, Nat.add_mod_left]
    exact Nat.mod_eq_of_lt hi
  · refine ⟨p - p % K + i, by omega, by omega, ?_⟩
    rw [hbase, Nat.mul_add_mod]
    exact Nat.mod_eq_of_lt hi

theorem stampSeq_succ_mod {K L : Nat} (hf : LapFacts K L) (j : Nat) :
    (stampSeq K L j + 1) % L = j % K + 1 := by
  rw [← Nat.mod_add_mod, stampSeq_mod hf j]
  exact Nat.mod_eq_of_lt (by have := Nat.mod_lt j hf.K_pos; have := hf.K_lt_L; omega)

theorem inv_slot_stamp_le {T : Type} {q : ArrayQueue T} {p n : Nat}
    (h : RingInv q p n) : ∀ s ∈ q.buffer, s.stamp % q.one_lap ≤ q.cap := by
  have hf := ringInv_lapFacts h
  intro s hs
  obtain ⟨i, hi, hget⟩ := List.getElem_of_mem hs
  have hiK : i < q.cap := by
    rw [← h.buf_len]
    exact hi
  obtain ⟨j, hj1, hj2, hj3⟩ := window_residue hf.K_pos p i hiK
  have hget2 : q.buffer[j % q.cap]? = some s := by
    rw [hj3]
    exact List.getElem?_eq_getElem hi ▸ congrArg some hget
  rcases Nat.lt_or_ge j n with hlt | hge
  · obtain ⟨w, hw⟩ := h.occupied j hj1 hlt
    rw [hget2] at hw
    have hs_eq : s.stamp = stampSeq q.cap q.one_lap j + 1 := by
      have := Option.some.inj hw
      rw [this]
    rw [hs_eq, stampSeq_succ_mod hf j]
    have := Nat.mod_lt j hf.K_pos
    omega
  · have hw := h.free j hge hj2
    rw [hget2] at hw
    have hs_eq : s.stamp = stampSeq q.cap q.one_lap j := by
      have := Option.some.inj hw
      rw [this]
    rw [hs_eq, stampSeq_mod hf j]
    have := Nat.mod_lt j hf.K_pos
    omega

/-! ## Evaluation of `ArrayQueue.new` at small capacities -/

theorem clog_two_two : Nat.clog 2 2 = 1 := by norm_num [Nat.clog]

theorem clog_two_three : Nat.clog 2 3 = 2 := by norm_num [Nat.clog]

theorem new_one_eq : ArrayQueue.new (T := Nat) 1 =
    { head := 0, tail := 0, buffer := [{ stamp := 0, value := none }],
      cap := 1, one_lap := 2 } := by
  unfold ArrayQueue.new next_power_of_two
  norm_num [clog_two_two]
  decide

theorem new_two_eq : ArrayQueue.new (T := Nat) 2 =
    { head := 0, tail := 0,
      buffer := [{ stamp := 0, value := none }, { stamp := 1, value := none }],
      cap := 2, one_lap := 4 } := by
  unfold ArrayQueue.new next_power_of_two
  norm_num [clog_two_three]
  decide

/-! ## Claim theorems -/

/-- C5: in every reachable state of the ring queue, the queue is empty
(pop observes no element) if and only if `head == tail`, and the queue is
full (push returns `Err`) if and only if `head + one_lap == tail`, the
comparisons taken with wrapping arithmetic. -/
theorem c5_empty_full_iff {T : Type} (q : ArrayQueue T)
    (hq : ArrayQueue.Reach q) :
    (q.pop = some (q, none) ↔ q.head = q.tail) ∧
    ∀ v : T, (q.push_blocking v = some (q, .error v) ↔
      (q.head + q.one_lap) % wordSize = q.tail) := by
  obtain ⟨p, n, h⟩ := reach_inv hq
  constructor
  · constructor
    · intro hpop
      rcases Nat.lt_or_ge p n with hlt | hge
      · obtain ⟨w, q', -, hpop2, -⟩ := inv_pop_some h hlt
        rw [hpop2] at hpop
        simp at hpop
      · have hpe : p = n := by
          have := h.p_le_n
          omega
        exact (inv_head_eq_tail_iff h).mpr hpe
    · intro hh
      exact inv_pop_empty h ((inv_head_eq_tail_iff h).mp hh)
  · intro v
    constructor
    · intro hpush
      rcases Nat.lt_or_ge n (p + q.cap) with hlt | hge
      · obtain ⟨q', hpush2, -⟩ := inv_push_ok h hlt v
        rw [hpush2] at hpush
        simp at hpush
      · have heq : n = p + q.cap := by
          have := h.n_le
          omega
        exact (inv_full_iff h).mpr heq
    · intro hh
      exact inv_push_err h ((inv_full_iff h).mp hh) v

/-- Witness for `c5_empty_full_iff` at the freshly created capacity-1
queue. -/
theorem c5_witness :
    ArrayQueue.Reach (ArrayQueue.new (T := Nat) 1) ∧
    ((ArrayQueue.new (T := Nat) 1).pop =
        some (ArrayQueue.new (T := Nat) 1, none) ↔
      (ArrayQueue.new (T := Nat) 1).head = (ArrayQueue.new (T := Nat) 1).tail) :=
  ⟨.init 1 (by norm_num) (by norm_num),
   (c5_empty_full_iff (ArrayQueue.new (T := Nat) 1)
     (.init 1 (by norm_num) (by norm_num))).1⟩

/-- C6: after any sequence of push and pop operations (i.e. in any
reachable state), `len()` is at most `cap`, and when `len() == cap` the
next `push_blocking` fails, returning `Err` with the offered value (the
queue itself is left unchanged). -/
theorem c6_len_bounds {T : Type} (q : ArrayQueue T)
    (hq : ArrayQueue.Reach q) :
    q.len ≤ q.cap ∧
    (q.len = q.cap → ∀ v : T, q.push_blocking v = some (q, .error v)) := by
  obtain ⟨p, n, h⟩ := reach_inv hq
  have hlen := inv_len h
  constructor
  · rw [hlen]
    have := h.n_le
    omega
  · intro hfull v
    have heq : n = p + q.cap := by
      rw [hlen] at hfull
      have := h.p_le_n
      have := h.n_le
      have := h.cap_pos
      omega
    exact inv_push_err h heq v

/-- Witness for `c6_len_bounds` at the full capacity-1 queue obtained by
pushing `5` into `ArrayQueue::new(1)`. -/
theorem c6_witness :
    ArrayQueue.Reach fullRingC1 ∧ fullRingC1.len ≤ fullRingC1.cap ∧
    (fullRingC1.len = fullRingC1.cap →
      ∀ v : Nat, fullRingC1.push_blocking v = some (fullRingC1, .error v)) := by
  have hreach : ArrayQueue.Reach fullRingC1 :=
    .push (ArrayQueue.new 1) fullRingC1 5 (.ok ())
      (.init 1 (by norm_num) (by norm_num)) (by rw [new_one_eq]; decide)
  exact ⟨hreach, c6_len_bounds fullRingC1 hreach⟩

/-- C9 counterexample: in the reachable capacity-1 queue holding one
element, the occupied slot's stamp has index part `1 = cap`, refuting
"the index part of every slot stamp is strictly less than cap". -/
theorem c9_counterexample :
    ArrayQueue.Reach c9_ring ∧
    ¬ (∀ s ∈ c9_ring.buffer, s.stamp % c9_ring.one_lap < c9_ring.cap) := by
  constructor
  · exact .push (ArrayQueue.new 1) c9_ring 5 (.ok ())
      (.init 1 (by norm_num) (by norm_num)) (by rw [new_one_eq]; decide)
  · decide

/-- C9 (amended): in every reachable state the index parts of `head` and
`tail` are strictly below `cap`, hence the slot lookups of `try_push` and
`try_pop` are in bounds (the `debug_assert` holds); the index part of a
slot stamp is only bounded by `cap` inclusively — it equals `cap` when
the last slot is occupied. -/
theorem c9_index_bounds {T : Type} (q : ArrayQueue T)
    (hq : ArrayQueue.Reach q) :
    q.head % q.one_lap < q.cap ∧ q.tail % q.one_lap < q.cap ∧
    (q.index q.tail).1 < q.buffer.length ∧
    (q.index q.head).1 < q.buffer.length ∧
    ∀ s ∈ q.buffer, s.stamp % q.one_lap ≤ q.cap := by
  obtain ⟨p, n, h⟩ := reach_inv hq
  have h1 := inv_head_index_lt h
  have h2 := inv_tail_index_lt h
  refine ⟨h1, h2, ?_, ?_, inv_slot_stamp_le h⟩
  · have he : (q.index q.tail).1 = q.tail % q.one_lap := rfl
    rw [he, h.buf_len]
    exact h2
  · have he : (q.index q.head).1 = q.head % q.one_lap := rfl
    rw [he, h.buf_len]
    exact h1

/-- Witness for `c9_index_bounds` at the freshly created capacity-1
queue. -/
theorem c9_witness :
    ArrayQueue.Reach (ArrayQueue.new (T := Nat) 1) ∧
    (ArrayQueue.new (T := Nat) 1).head % (ArrayQueue.new (T := Nat) 1).one_lap <
      (ArrayQueue.new (T := Nat) 1).cap :=
  ⟨.init 1 (by norm_num) (by norm_num),
   (c9_index_bounds (ArrayQueue.new (T := Nat) 1)
     (.init 1 (by norm_num) (by norm_num))).1⟩

/-- C8 counterexample: on the reachable, quiescent, non-full queue
`c8_q1` (capacity 2, holding the single element 1), `push_blocking 2`
succeeds but the subsequent `pop` returns `some 1`, not `some 2` — the
ring is FIFO, so the round-trip only reads back the pushed value when the
queue was empty. -/
theorem c8_counterexample :
    ArrayQueue.Reach c8_q1 ∧ c8_q1.len < c8_q1.cap ∧
    c8_q1.push_blocking 2 = some (c8_q2, .ok ()) ∧
    ¬ (c8_q2.pop.map Prod.snd = some (some 2)) := by
  refine ⟨?_, by decide, by decide, by decide⟩
  exact .push (ArrayQueue.new 2) c8_q1 1 (.ok ())
    (.init 2 (by norm_num) (by norm_num)) (by rw [new_two_eq]; decide)

/-- C8 (amended): on a reachable quiescent queue that is EMPTY,
`push_blocking v` returns `Ok` and the subsequent `pop` returns
`Some v`. -/
theorem c8_roundtrip_empty {T : Type} (q : ArrayQueue T)
    (hq : ArrayQueue.Reach q) (hempty : q.head = q.tail) (v : T) :
    ∃ q1 q2, q.push_blocking v = some (q1, .ok ()) ∧
      q1.pop = some (q2, some v) := by
  obtain ⟨p, n, h⟩ := reach_inv hq
  have hpe : p = n := (inv_head_eq_tail_iff h).mp hempty
  subst hpe
  have hlt : p < p + q.cap := by
    have := h.cap_pos
    omega
  obtain ⟨q1, hpush, hinv1, -, hcap, hlap, hbuf⟩ := inv_push_ok h hlt v
  obtain ⟨w, q2, hslot, hpop, -, -, -, -⟩ := inv_pop_some hinv1 (by omega)
  have hvw : w = v := by
    rw [hbuf, hcap, hlap] at hslot
    have hlen : p % q.cap < q.buffer.length := by
      rw [h.buf_len]
      exact Nat.mod_lt _ h.cap_pos
    rw [List.getElem?_set_self hlen] at hslot
    simp only [Option.some.injEq, Slot.mk.injEq] at hslot
    exact hslot.2.symm
  subst hvw
  exact ⟨q1, q2, hpush, hpop⟩

/-- Witness for `c8_roundtrip_empty`: pushing 9 into the empty
capacity-1 queue and popping returns 9. -/
theorem c8_witness :
    ArrayQueue.Reach (ArrayQueue.new (T := Nat) 1) ∧
    (ArrayQueue.new (T := Nat) 1).head = (ArrayQueue.new (T := Nat) 1).tail ∧
    ∃ q1 q2, (ArrayQueue.new (T := Nat) 1).push_blocking 9 =
        some (q1, .ok ()) ∧ q1.pop = some (q2, some 9) :=
  ⟨.init 1 (by norm_num) (by norm_num), rfl,
   c8_roundtrip_empty (ArrayQueue.new (T := Nat) 1)
     (.init 1 (by norm_num) (by norm_num)) rfl 9⟩

/-- C1 counterexample: dropping a lease onto a pool whose ring is full
(reachable when `close` has drained nothing but another lease returned
first, or under the race the spec itself calls a bug) takes the failed
push path of `PoolInner::return_object` in `pool.rs`, which adds no
permit but also calls no `detach` hook — the resource is silently
dropped.  Hence neither disjunct of the claim holds. -/
theorem c1_counterexample :
    ArrayQueue.Reach c1_pool_full.ring ∧
    return_object c1_pool_full 6 = some c1_pool_full ∧
    ¬ (((return_object c1_pool_full 6).map (fun s => s.ring.len) =
          some (c1_pool_full.ring.len + 1) ∧
        (return_object c1_pool_full 6).map (fun s => s.semaphore.permits) =
          some (c1_pool_full.semaphore.permits + 1)) ∨
       ((return_object c1_pool_full 6).map (fun s => s.detach_count) =
          some (c1_pool_full.detach_count + 1) ∧
        (return_object c1_pool_full 6).map (fun s => s.semaphore.permits) =
          some c1_pool_full.semaphore.permits)) := by
  refine ⟨?_, by decide, by decide⟩
  exact .push (ArrayQueue.new 1) c1_pool_full.ring 5 (.ok ())
    (.init 1 (by norm_num) (by norm_num)) (by rw [new_one_eq]; decide)

/-- C1 (amended): on every lease drop onto a live pool with a reachable
ring, exactly one of two outcomes occurs: the ring push succeeds, the
ring length grows by one and the gate gains exactly one permit; or the
push fails and ring, gate and hook counter are all unchanged (the
resource is dropped without any manager hook running). -/
theorem c1_return_object {T : Type} (p : PoolState T) (v : T)
    (hq : ArrayQueue.Reach p.ring) :
    ∃ p', return_object p v = some p' ∧ p'.detach_count = p.detach_count ∧
      ((p'.ring.len = p.ring.len + 1 ∧
        p'.semaphore.permits = p.semaphore.permits + 1) ∨
       (p'.ring = p.ring ∧ p'.semaphore = p.semaphore ∧
        p'.ring.len = p.ring.len)) := by
  obtain ⟨pp, nn, h⟩ := reach_inv hq
  rcases Nat.lt_or_ge nn (pp + p.ring.cap) with hlt | hge
  · obtain ⟨q1, hpush, hinv1, -, -, -, -⟩ := inv_push_ok h hlt v
    refine ⟨{ p with ring := q1, semaphore := p.semaphore.add_permits 1 },
            ?_, rfl, Or.inl ⟨?_, rfl⟩⟩
    · unfold return_object
      rw [hpush]
    · rw [inv_len hinv1, inv_len h]
      have := h.p_le_n
      omega
  · have heq : nn = pp + p.ring.cap := by
      have := h.n_le
      omega
    have hpush := inv_push_err h heq v
    refine ⟨p, ?_, rfl, Or.inr ⟨rfl, rfl, rfl⟩⟩
    unfold return_object
    rw [hpush]

/-- Witness for `c1_return_object`: returning a resource to a live pool
over the empty capacity-1 ring. -/
theorem c1_witness :
    ∃ p', return_object
        { ring := ArrayQueue.new (T := Nat) 1,
          semaphore := { permits := 1, closed := false },
          detach_count := 0 } 5 = some p' ∧
      p'.detach_count = 0 ∧
      ((p'.ring.len = (ArrayQueue.new (T := Nat) 1).len + 1 ∧
        p'.semaphore.permits = 2) ∨
       (p'.ring = ArrayQueue.new (T := Nat) 1 ∧
        p'.semaphore = { permits := 1, closed := false } ∧
        p'.ring.len = (ArrayQueue.new (T := Nat) 1).len)) :=
  c1_return_object
    { ring := ArrayQueue.new (T := Nat) 1,
      semaphore := { permits := 1, closed := false }, detach_count := 0 } 5
    (.init 1 (by norm_num) (by norm_num))

/-- C4 counterexample: closing a pool whose ring holds one idle resource
drains the ring, but the drained resource is simply dropped by the
`while … pop …` loop of `Pool::close`; no `detach` hook is invoked on
it (`detach_count` stays 0 instead of rising to 1). -/
theorem c4_counterexample :
    c4_pool_idle.ring.len = 1 ∧ c4_pool_idle.detach_count = 0 ∧
    (pool_close c4_pool_idle).map (fun s => s.detach_count) = some 0 ∧
    ¬ ((pool_close c4_pool_idle).map (fun s => s.detach_count) =
        some (c4_pool_idle.detach_count + c4_pool_idle.ring.len)) := by
  decide

/-- C4 (amended): `close()` closes the gate and then drains the ring
until it is empty; the drained resources are dropped without any manager
hook being called. -/
theorem c4_close {T : Type} (p : PoolState T)
    (hq : ArrayQueue.Reach p.ring) :
    ∃ p', pool_close p = some p' ∧ p'.semaphore.closed = true ∧
      p'.ring.len = 0 ∧ p'.ring.head = p'.ring.tail ∧
      p'.detach_count = p.detach_count := by
  obtain ⟨pp, nn, h⟩ := reach_inv hq
  have hlen := inv_len h
  obtain ⟨q', hd, hinv'⟩ := drain_inv p.ring.len p.ring pp nn h
    (by rw [hlen]; have := h.p_le_n; omega)
  refine ⟨{ p with semaphore := p.semaphore.close, ring := q' }, ?_, rfl,
          ?_, ?_, rfl⟩
  · unfold pool_close
    rw [hd]
  · rw [inv_len hinv']
    omega
  · exact (inv_head_eq_tail_iff hinv').mpr rfl

/-- Witness for `c4_close` on a live pool over the empty capacity-1
ring. -/
theorem c4_witness :
    ∃ p', pool_close
        { ring := ArrayQueue.new (T := Nat) 1,
          semaphore := { permits := 0, closed := false },
          detach_count := 3 } = some p' ∧
      p'.semaphore.closed = true ∧ p'.ring.len = 0 ∧
      p'.ring.head = p'.ring.tail ∧ p'.detach_count = 3 :=
  c4_close
    { ring := ArrayQueue.new (T := Nat) 1,
      semaphore := { permits := 0, closed := false }, detach_count := 3 }
    (.init 1 (by norm_num) (by norm_num))

/-- C3 counterexample: `Object::take` on a live pool (current
`object.rs`) adds the permit back but never calls the manager `detach`
hook — `detach_count` stays 0 where the claim demands 1. -/
theorem c3_counterexample :
    (object_take (some c3_pool) 9).2 = 9 ∧
    (object_take (some c3_pool) 9).1.map (fun s => s.semaphore.permits) =
      some (c3_pool.semaphore.permits + 1) ∧
    (object_take (some c3_pool) 9).1.map (fun s => s.detach_count) = some 0 ∧
    ¬ ((object_take (some c3_pool) 9).1.map (fun s => s.detach_count) =
        some (c3_pool.detach_count + 1)) := by
  decide

/-- C3 (amended): `take` on a lease whose pool is still alive hands the
inner value to the caller, adds exactly one permit back to the gate, and
leaves the ring untouched; no manager hook is invoked.  When the pool is
gone, nothing is updated. -/
theorem c3_take {T : Type} (p : PoolState T) (v : T) :
    (object_take (some p) v).2 = v ∧
    (object_take (some p) v).1.map (fun s => s.semaphore.permits) =
      some (p.semaphore.permits + 1) ∧
    (object_take (some p) v).1.map (fun s => s.ring) = some p.ring ∧
    (object_take (some p) v).1.map (fun s => s.detach_count) =
      some p.detach_count ∧
    object_take (none : Option (PoolState T)) v = (none, v) :=
  ⟨rfl, rfl, rfl, rfl, rfl⟩

/-- C2 counterexample: a `get` whose deadline elapses inside
`manager.recycle` surfaces `PoolError::Timeout(Recycle)` to the caller —
the `?` on `try_recycle` in `Pool::get_inner` propagates it instead of
retrying the loop. -/
theorem c2_counterexample :
    ArrayQueue.Reach c2_ring ∧
    get_inner_loop (E := Unit) 2 c2_ring (fun _ => RecycleEvent.deadline)
      (fun _ => CreateEvent.completes (.ok 0)) 0 =
      some ({ head := 2, tail := 2, buffer := [{ stamp := 2, value := none }],
              cap := 1, one_lap := 2 },
            .error (.timeout .recycle)) := by
  constructor
  · exact .push (ArrayQueue.new 1) c2_ring 7 (.ok ())
      (.init 1 (by norm_num) (by norm_num)) (by rw [new_one_eq]; decide)
  · decide

/-- C2 (amended): when the ring yields an idle resource, a recycle that
completes unsuccessfully (the manager surrenders the object) is swallowed
— the object is discarded and the loop retries under the same permit —
but when the deadline elapses inside `manager.recycle`, the loop stops
and `Timeout(Recycle)` IS returned to the caller. -/
theorem get_inner_loop_succ {T E : Type} (fuel : Nat) (q : ArrayQueue T)
    (re : Nat → RecycleEvent T) (ce : Nat → CreateEvent T E) (k : Nat) :
    get_inner_loop (fuel + 1) q re ce k =
      match q.pop with
      | none => none
      | some (q', some _) =>
        match try_recycle (E := E) (re k) with
        | .error e => some (q', .error e)
        | .ok (some obj) => some (q', .ok obj)
        | .ok none => get_inner_loop fuel q' re ce (k + 1)
      | some (q', none) =>
        match try_create (ce k) with
        | .error e => some (q', .error e)
        | .ok v => some (q', .ok v) := rfl

theorem c2_recycle_behavior {T E : Type} (fuel : Nat) (q q' : ArrayQueue T)
    (re : Nat → RecycleEvent T) (ce : Nat → CreateEvent T E) (k : Nat)
    (obj : T) (hpop : q.pop = some (q', some obj)) :
    (re k = .deadline →
      get_inner_loop (fuel + 1) q re ce k =
        some (q', .error (.timeout .recycle))) ∧
    (re k = .completes none →
      get_inner_loop (fuel + 1) q re ce k =
        get_inner_loop fuel q' re ce (k + 1)) := by
  constructor <;> intro hre <;> rw [get_inner_loop_succ, hpop, hre] <;> rfl

/-- Witness for `c2_recycle_behavior` on the capacity-1 ring holding one
resource, with a recycle that times out. -/
theorem c2_witness :
    c2_ring.pop =
      some ({ head := 2, tail := 2, buffer := [{ stamp := 2, value := none }],
              cap := 1, one_lap := 2 },
            some 7) ∧
    get_inner_loop (E := Unit) (1 + 1) c2_ring
        (fun _ => RecycleEvent.deadline)
        (fun _ => CreateEvent.completes (.ok 0)) 0 =
      some ({ head := 2, tail := 2, buffer := [{ stamp := 2, value := none }],
              cap := 1, one_lap := 2 },
            .error (.timeout .recycle)) :=
  ⟨by decide,
   (c2_recycle_behavior 1 c2_ring _ (fun _ => RecycleEvent.deadline)
     (fun _ => CreateEvent.completes (.ok 0)) 0 7 (by decide)).1 rfl⟩

/-- C7: a zero configured timeout makes acquisition non-blocking:
`try_acquire` is used, `NoPermits` maps to `Timeout(Wait)` and `Closed`
maps to `Closed`; in particular with `max_size = 1` and the one permit
held, the call returns `Timeout(Wait)` without suspending. -/
theorem c7_zero_timeout {E : Type} :
    is_nonblocking (some 0) = true ∧
    (∀ s : Semaphore, s.closed = true →
      acquire_nonblocking (E := E) s = .error .closed) ∧
    (∀ s : Semaphore, s.closed = false → s.permits = 0 →
      acquire_nonblocking (E := E) s = .error (.timeout .wait)) ∧
    (∀ s : Semaphore, s.closed = false → 0 < s.permits →
      acquire_nonblocking (E := E) s =
        .ok { s with permits := s.permits - 1 }) := by
  refine ⟨rfl, ?_, ?_, ?_⟩
  · intro s hc
    simp [acquire_nonblocking, Semaphore.try_acquire, hc]
  · intro s hc hp
    simp [acquire_nonblocking, Semaphore.try_acquire, hc, hp]
  · intro s hc hp
    simp [acquire_nonblocking, Semaphore.try_acquire, hc, Nat.pos_iff_ne_zero.mp hp]

/-- Witness for `c7_zero_timeout`: one lease held out of `max_size = 1`
(zero permits, gate open) yields `Timeout(Wait)`. -/
theorem c7_witness :
    is_nonblocking (some 0) = true ∧
    acquire_nonblocking (E := Unit) { permits := 0, closed := false } =
      .error (.timeout .wait) :=
  ⟨rfl, (c7_zero_timeout (E := Unit)).2.2.1 { permits := 0, closed := false }
    rfl rfl⟩

/-- C10: `Pool::timeout_get` increments `failure_count` by exactly one on
every errored call, whichever `PoolError` it is, and leaves it unchanged
on success; the result itself passes through unchanged. -/
theorem c10_failure_count {E A : Type} (m : PoolMetrics) (waited : Nat) :
    (∀ e : PoolError E,
      (timeout_get_record (A := A) m waited (.error e)).1.failure_count =
        m.failure_count + 1 ∧
      (timeout_get_record (A := A) m waited (.error e)).2 = .error e) ∧
    (∀ a : A,
      (timeout_get_record (E := E) m waited (.ok a)).1.failure_count =
        m.failure_count ∧
      (timeout_get_record (E := E) m waited (.ok a)).2 = .ok a) :=
  ⟨fun _ => ⟨rfl, rfl⟩, fun _ => ⟨rfl, rfl⟩⟩

/-- For contrast: the older `lib.rs` return path does call the `detach`
hook when the push fails, as the spec describes. -/
theorem return_object_lib_full {T : Type} (p : PoolState T) (v : T)
    (pp nn : Nat) (h : RingInv p.ring pp nn) (heq : nn = pp + p.ring.cap) :
    return_object_lib p v =
      some { p with detach_count := p.detach_count + 1 } := by
  unfold return_object_lib
  rw [inv_push_err h heq v]

/-- For contrast: the older `lib.rs` take path adds a permit and calls
the `detach` hook, as the spec describes. -/
theorem object_take_lib_detaches {T : Type} (p : PoolState T) (v : T) :
    object_take_lib (some p) v =
      (some { p with
                semaphore := { p.semaphore with
                                 permits := p.semaphore.permits + 1 }
                detach_count := p.detach_count + 1 }, v) := rfl
